import Mathlib

/-!  Verification of the record-linkage / majority-vote batch-training
pipeline of `src/batch_train.py` (sea-express-customs-etl).

The Python source is shallowly embedded: pandas columns become `List`s of
row structures, the text-cleaning helpers become `List Char` functions, and
the database publish step becomes an explicit state transformer over a
`DBState` value.  Machine behaviour of the MySQL backend configured in
`src/database.py` (implicit commits of DDL and `TRUNCATE`) is modelled
explicitly where a claim depends on it. -/

namespace SeaExpress

/-! ### Character-level model of the text cleaning in `normalize_text` -/

/-- Model of the Python regex class `\s` over the ASCII whitespace
characters (space, tab, newline, carriage return, vertical tab, form feed).
The ideographic space U+3000 is turned into a plain space by the NFKC step
before this predicate is ever consulted. -/
def isSpaceChar (c : Char) : Bool :=
  decide (c.toNat = 32 ∨ c.toNat = 9 ∨ c.toNat = 10 ∨ c.toNat = 13 ∨
    c.toNat = 11 ∨ c.toNat = 12)

/-- Model of the Python regex class `\w` (word characters), covering the
character repertoire this repository exercises: ASCII letters and digits,
the underscore, and the CJK unified ideographs block. -/
def isWordChar (c : Char) : Bool :=
  decide ((65 ≤ c.toNat ∧ c.toNat ≤ 90) ∨ (97 ≤ c.toNat ∧ c.toNat ≤ 122) ∨
    (48 ≤ c.toNat ∧ c.toNat ≤ 57) ∨ c.toNat = 95 ∨
    (0x4E00 ≤ c.toNat ∧ c.toNat ≤ 0x9FFF))

/-- Character-wise model of `unicodedata.normalize('NFKC', s)` as used in
`normalize_text` step 1 (full-width to half-width folding): the full-width
ASCII-variant block U+FF01..U+FF5E compatibility-decomposes to
U+0021..U+007E, the ideographic space U+3000 to the ASCII space; all other
characters of the modelled repertoire are NFKC-stable. -/
def nfkcChar (c : Char) : Char :=
  if 0xFF01 ≤ c.toNat ∧ c.toNat ≤ 0xFF5E then Char.ofNat (c.toNat - 0xFF00 + 0x20)
  else if c.toNat = 0x3000 then ' ' else c

/-- Helper for `squeezeSpaces`: the flag records whether the previous
character belonged to a whitespace run that has already emitted its space. -/
def squeezeAux : Bool → List Char → List Char
  | _, [] => []
  | true, c :: t =>
    if isSpaceChar c then squeezeAux true t else c :: squeezeAux false t
  | false, c :: t =>
    if isSpaceChar c then ' ' :: squeezeAux true t else c :: squeezeAux false t

/-- Model of `re.sub(r'\s+', ' ', s)`: every maximal run of whitespace
characters is replaced by one single space. -/
def squeezeSpaces (l : List Char) : List Char := squeezeAux false l

/-- Model of Python `str.strip()`: drop whitespace from both ends. -/
def stripEnds (l : List Char) : List Char :=
  ((l.dropWhile isSpaceChar).reverse.dropWhile isSpaceChar).reverse

/-- Model of `s.split('/')[-1]`: the segment after the last `'/'`. -/
def lastSegment (l : List Char) : List Char :=
  (l.reverse.takeWhile (fun c => !(c == '/'))).reverse

/-- Model of `re.sub(r'[^\w\s]', ' ', s)` applied character-wise: every
character that is neither a word character nor whitespace becomes a space. -/
def replPunct (c : Char) : Char :=
  if isWordChar c || isSpaceChar c then c else ' '

/-- The five cleaning steps of `normalize_text` (batch_train.py lines
33-52) on the character list of a non-empty input: NFKC width folding,
uppercasing, keeping only the segment after the last slash when a slash is
present, punctuation replacement, and whitespace squeezing plus strip. -/
def normalizeCore (l : List Char) : List Char :=
  let l1 := l.map nfkcChar
  let l2 := l1.map Char.toUpper
  let l3 := if l2.contains '/' then lastSegment l2 else l2
  let l4 := l3.map replPunct
  stripEnds (squeezeSpaces l4)

/-- `normalize_text` (batch_train.py lines 21-52).  The argument is
`Option String` because the Python parameter may be `None`; `if not
text_str: return ""` maps both `None` and `""` to the empty string. -/
def normalize_text : Option String → String
  | none => ""
  | some s => if s == "" then "" else String.mk (normalizeCore s.data)

/-! ### Linkage-key canonicalization -/

/-- Model of the key cleaning of `train_model` (batch_train.py lines
84-86): the regex replace that deletes whitespace, slash and hyphen,
followed by `.str.upper()`. -/
def canonicalize (s : String) : String :=
  String.mk ((s.data.filter (fun c => !(isSpaceChar c || c == '/' || c == '-'))).map Char.toUpper)

/-- Model of the `link_key` column (batch_train.py line 87):
`mawb_clean + "_" + hawb_clean`. -/
def linkKey (m h : String) : String := canonicalize m ++ "_" ++ canonicalize h

/-! ### Character-level facts -/

theorem toNat_ofNat_valid {n : Nat} (h : n < 55296) : (Char.ofNat n).toNat = n := by
  have hv : n.isValidChar := Or.inl h
  rw [Char.ofNat, dif_pos hv]
  simp [Char.ofNatAux, Char.toNat, UInt32.toNat]

theorem toUpper_of_lower {c : Char} (h : c.toNat ≥ 97 ∧ c.toNat ≤ 122) :
    Char.toUpper c = Char.ofNat (c.toNat - 32) := by
  rw [Char.toUpper, if_pos h]

theorem toUpper_of_not_lower {c : Char} (h : ¬(c.toNat ≥ 97 ∧ c.toNat ≤ 122)) :
    Char.toUpper c = c := by
  rw [Char.toUpper, if_neg h]

theorem toNat_toUpper_of_lower {c : Char} (h : c.toNat ≥ 97 ∧ c.toNat ≤ 122) :
    (Char.toUpper c).toNat = c.toNat - 32 := by
  rw [toUpper_of_lower h, toNat_ofNat_valid (by omega)]

theorem toUpper_idem (c : Char) : Char.toUpper (Char.toUpper c) = Char.toUpper c := by
  by_cases h : c.toNat ≥ 97 ∧ c.toNat ≤ 122
  · have hn : (Char.toUpper c).toNat = c.toNat - 32 := toNat_toUpper_of_lower h
    exact toUpper_of_not_lower (by omega)
  · rw [toUpper_of_not_lower h, toUpper_of_not_lower h]

theorem nfkcChar_of_small {c : Char} (h : c.toNat < 0xFF01) (h3 : c.toNat ≠ 0x3000) :
    nfkcChar c = c := by
  rw [nfkcChar, if_neg (by omega), if_neg h3]

/-- Whitespace and word characters are disjoint classes. -/
theorem not_space_of_word {c : Char} (h : isWordChar c = true) : isSpaceChar c = false := by
  simp only [isWordChar, decide_eq_true_eq] at h
  simp only [isSpaceChar, decide_eq_false_iff_not]
  omega

theorem word_ne_slash {c : Char} (h : isWordChar c = true) : c ≠ '/' := by
  intro he
  subst he
  simp only [isWordChar, decide_eq_true_eq] at h
  have : ('/' : Char).toNat = 47 := rfl
  omega

theorem nfkc_of_word {c : Char} (h : isWordChar c = true) : nfkcChar c = c := by
  simp only [isWordChar, decide_eq_true_eq] at h
  exact nfkcChar_of_small (by omega) (by omega)

theorem nfkc_of_space {c : Char} (h : isSpaceChar c = true) : nfkcChar c = c := by
  simp only [isSpaceChar, decide_eq_true_eq] at h
  exact nfkcChar_of_small (by omega) (by omega)

theorem toUpper_of_space {c : Char} (h : isSpaceChar c = true) : Char.toUpper c = c := by
  simp only [isSpaceChar, decide_eq_true_eq] at h
  exact toUpper_of_not_lower (by omega)

/-- A character in the range produced by the `GoodChar` analysis keeps its
word status under nothing further; `replPunct` fixes word and space chars. -/
theorem replPunct_of_word {c : Char} (h : isWordChar c = true) : replPunct c = c := by
  rw [replPunct, if_pos (by simp [h])]

theorem replPunct_of_space {c : Char} (h : isSpaceChar c = true) : replPunct c = c := by
  rw [replPunct, if_pos (by simp [h])]

/-! ### Shape of the normalizer output -/

/-- Characters that can appear in the output of `normalizeCore`: a plain
space, or an already-uppercased word character. -/
def GoodChar (c : Char) : Prop := c = ' ' ∨ (isWordChar c = true ∧ Char.toUpper c = c)

theorem GoodChar.nfkc {c : Char} (h : GoodChar c) : nfkcChar c = c := by
  rcases h with h | ⟨hw, _⟩
  · subst h; exact nfkc_of_space (by decide)
  · exact nfkc_of_word hw

theorem GoodChar.upper {c : Char} (h : GoodChar c) : Char.toUpper c = c := by
  rcases h with h | ⟨_, hu⟩
  · subst h; exact toUpper_of_space (by decide)
  · exact hu

theorem GoodChar.repl {c : Char} (h : GoodChar c) : replPunct c = c := by
  rcases h with h | ⟨hw, _⟩
  · subst h; exact replPunct_of_space (by decide)
  · exact replPunct_of_word hw

theorem GoodChar.ne_slash {c : Char} (h : GoodChar c) : c ≠ '/' := by
  rcases h with h | ⟨hw, _⟩
  · subst h; decide
  · exact word_ne_slash hw

/-- Whitespace characters in a list have been normalized to plain spaces. -/
def SpacesOk (l : List Char) : Prop := ∀ c ∈ l, isSpaceChar c = true → c = ' '

/-- No two adjacent whitespace characters. -/
def NoAdjSpaces (l : List Char) : Prop :=
  List.Chain' (fun a b => isSpaceChar a = false ∨ isSpaceChar b = false) l

theorem squeezeAux_mem {c : Char} : ∀ (b : Bool) (t : List Char),
    c ∈ squeezeAux b t → c = ' ' ∨ c ∈ t := by
  intro b t
  induction t generalizing b with
  | nil => intro h; cases b <;> simp [squeezeAux] at h
  | cons d t ih =>
    intro h
    by_cases hs : isSpaceChar d = true
    · cases b with
      | true =>
        rw [squeezeAux, if_pos hs] at h
        rcases ih true h with h1 | h1
        · exact Or.inl h1
        · exact Or.inr (List.mem_cons_of_mem _ h1)
      | false =>
        rw [squeezeAux, if_pos hs] at h
        rcases List.mem_cons.mp h with h1 | h1
        · exact Or.inl h1
        · rcases ih true h1 with h2 | h2
          · exact Or.inl h2
          · exact Or.inr (List.mem_cons_of_mem _ h2)
    · have hrw : squeezeAux b (d :: t) = d :: squeezeAux false t := by
        cases b <;> rw [squeezeAux, if_neg hs]
      rw [hrw] at h
      rcases List.mem_cons.mp h with h1 | h1
      · exact Or.inr (h1 ▸ List.mem_cons_self _ _)
      · rcases ih false h1 with h2 | h2
        · exact Or.inl h2
        · exact Or.inr (List.mem_cons_of_mem _ h2)

theorem squeezeAux_spacesOk : ∀ (b : Bool) (t : List Char), SpacesOk (squeezeAux b t) := by
  intro b t
  induction t generalizing b with
  | nil => intro c hc; cases b <;> simp [squeezeAux] at hc
  | cons d t ih =>
    intro c hc hsp
    by_cases hs : isSpaceChar d = true
    · cases b with
      | true => rw [squeezeAux, if_pos hs] at hc; exact ih true c hc hsp
      | false =>
        rw [squeezeAux, if_pos hs] at hc
        rcases List.mem_cons.mp hc with h1 | h1
        · exact h1
        · exact ih true c h1 hsp
    · have hrw : squeezeAux b (d :: t) = d :: squeezeAux false t := by
        cases b <;> rw [squeezeAux, if_neg hs]
      rw [hrw] at hc
      rcases List.mem_cons.mp hc with h1 | h1
      · exact absurd (h1 ▸ hsp) hs
      · exact ih false c h1 hsp

theorem squeezeAux_true_head : ∀ (t : List Char) {c : Char},
    (squeezeAux true t).head? = some c → isSpaceChar c = false := by
  intro t
  induction t with
  | nil => intro c hc; simp [squeezeAux] at hc
  | cons d t ih =>
    intro c hc
    by_cases hs : isSpaceChar d = true
    · rw [squeezeAux, if_pos hs] at hc; exact ih hc
    · rw [squeezeAux, if_neg hs] at hc
      simp only [List.head?_cons, Option.some.injEq] at hc
      subst hc
      exact Bool.eq_false_iff.mpr hs

theorem squeezeAux_noAdj : ∀ (b : Bool) (t : List Char), NoAdjSpaces (squeezeAux b t) := by
  intro b t
  induction t generalizing b with
  | nil => cases b <;> exact List.chain'_nil
  | cons d t ih =>
    by_cases hs : isSpaceChar d = true
    · cases b with
      | true => rw [squeezeAux, if_pos hs]; exact ih true
      | false =>
        rw [squeezeAux, if_pos hs]
        refine List.chain'_cons'.mpr ⟨?_, ih true⟩
        intro y hy
        exact Or.inr (squeezeAux_true_head t hy)
    · have hrw : squeezeAux b (d :: t) = d :: squeezeAux false t := by
        cases b <;> rw [squeezeAux, if_neg hs]
      rw [hrw]
      refine List.chain'_cons'.mpr ⟨?_, ih false⟩
      intro y _
      exact Or.inl (Bool.eq_false_iff.mpr hs)

theorem squeezeAux_true_eq_false {t : List Char}
    (h : ∀ c, t.head? = some c → isSpaceChar c = false) :
    squeezeAux true t = squeezeAux false t := by
  cases t with
  | nil => rfl
  | cons d t =>
    have hd : isSpaceChar d = false := h d rfl
    rw [squeezeAux, squeezeAux, if_neg (by simp [hd]), if_neg (by simp [hd])]

theorem squeezeAux_fix : ∀ {t : List Char}, SpacesOk t → NoAdjSpaces t →
    squeezeAux false t = t := by
  intro t
  induction t with
  | nil => intro _ _; rfl
  | cons d t ih =>
    intro hso hna
    have hna' := List.chain'_cons'.mp hna
    by_cases hs : isSpaceChar d = true
    · have hd : d = ' ' := hso d (List.mem_cons_self _ _) hs
      rw [squeezeAux, if_pos hs, hd]
      have hhead : ∀ c, t.head? = some c → isSpaceChar c = false := by
        intro c hc
        rcases hna'.1 c hc with h1 | h1
        · exact absurd hs (by simp [h1])
        · exact h1
      rw [squeezeAux_true_eq_false hhead,
        ih (fun c hc hcs => hso c (List.mem_cons_of_mem _ hc) hcs) hna'.2]
    · rw [squeezeAux, if_neg hs,
        ih (fun c hc hcs => hso c (List.mem_cons_of_mem _ hc) hcs) hna'.2]

/-! ### stripEnds facts -/

theorem dropWhile_head_not {α : Type} {p : α → Bool} : ∀ (l : List α) {c : α},
    (l.dropWhile p).head? = some c → p c = false := by
  intro l
  induction l with
  | nil => intro c hc; simp [List.dropWhile] at hc
  | cons a t ih =>
    intro c hc
    rw [List.dropWhile_cons] at hc
    by_cases pa : p a = true
    · rw [if_pos pa] at hc; exact ih hc
    · rw [if_neg pa] at hc
      simp only [List.head?_cons, Option.some.injEq] at hc
      subst hc
      exact Bool.eq_false_iff.mpr pa

theorem prefix_head? {α : Type} {l₁ l₂ : List α} {c : α} (h : l₁ <+: l₂)
    (hc : l₁.head? = some c) : l₂.head? = some c := by
  rcases h with ⟨t, rfl⟩
  cases l₁ with
  | nil => simp at hc
  | cons a u => simpa using hc

theorem stripEnds_prefix_dropWhile (l : List Char) :
    stripEnds l <+: l.dropWhile isSpaceChar := by
  unfold stripEnds
  have h2 : (l.dropWhile isSpaceChar).reverse.dropWhile isSpaceChar <:+
      (l.dropWhile isSpaceChar).reverse := List.dropWhile_suffix _
  rw [← List.reverse_reverse ((l.dropWhile isSpaceChar).reverse.dropWhile isSpaceChar)] at h2
  exact List.reverse_suffix.mp h2

theorem stripEnds_within (l : List Char) : stripEnds l <:+: l := by
  have h1 : stripEnds l <:+: l.dropWhile isSpaceChar :=
    List.IsPrefix.isInfix (stripEnds_prefix_dropWhile l)
  have h2 : l.dropWhile isSpaceChar <:+: l :=
    List.IsSuffix.isInfix (List.dropWhile_suffix _)
  exact h1.trans h2

theorem stripEnds_head_not {l : List Char} {c : Char}
    (h : (stripEnds l).head? = some c) : isSpaceChar c = false :=
  dropWhile_head_not l (prefix_head? (stripEnds_prefix_dropWhile l) h)

theorem stripEnds_getLast_not {l : List Char} {c : Char}
    (h : (stripEnds l).getLast? = some c) : isSpaceChar c = false := by
  unfold stripEnds at h
  rw [List.getLast?_reverse] at h
  exact dropWhile_head_not _ h

theorem stripEnds_fix {l : List Char}
    (hh : ∀ c, l.head? = some c → isSpaceChar c = false)
    (hl : ∀ c, l.getLast? = some c → isSpaceChar c = false) :
    stripEnds l = l := by
  have h1 : l.dropWhile isSpaceChar = l := by
    cases l with
    | nil => rfl
    | cons a t => rw [List.dropWhile_cons, if_neg (by simp [hh a rfl])]
  unfold stripEnds
  rw [h1]
  have h2 : l.reverse.dropWhile isSpaceChar = l.reverse := by
    cases hr : l.reverse with
    | nil => rfl
    | cons a t =>
      have ha : l.getLast? = some a := by
        rw [← List.head?_reverse, hr, List.head?_cons]
      rw [List.dropWhile_cons, if_neg (by simp [hl a ha])]
  rw [h2, List.reverse_reverse]

/-! ### Idempotence of the normalizer -/

theorem normalizeCore_eq (l : List Char) :
    normalizeCore l = stripEnds (squeezeSpaces
      ((if ((l.map nfkcChar).map Char.toUpper).contains '/' then
          lastSegment ((l.map nfkcChar).map Char.toUpper)
        else (l.map nfkcChar).map Char.toUpper).map replPunct)) := rfl

theorem map_fix {α : Type} {f : α → α} : ∀ {l : List α},
    (∀ c ∈ l, f c = c) → l.map f = l := by
  intro l h
  induction l with
  | nil => rfl
  | cons a t ih =>
    rw [List.map_cons, h a (List.mem_cons_self _ _),
      ih (fun c hc => h c (List.mem_cons_of_mem _ hc))]

theorem mem_lastSegment {l : List Char} {c : Char} (h : c ∈ lastSegment l) : c ∈ l := by
  unfold lastSegment at h
  rw [List.mem_reverse] at h
  have h2 : l.reverse.takeWhile (fun c => !(c == '/')) <+: l.reverse :=
    List.takeWhile_prefix _
  exact List.mem_reverse.mp (h2.subset h)

theorem normalizeCore_good {l : List Char} : ∀ c ∈ normalizeCore l, GoodChar c := by
  intro c hc
  rw [normalizeCore_eq] at hc
  have hmem : c ∈ squeezeAux false
      ((if ((l.map nfkcChar).map Char.toUpper).contains '/' then
          lastSegment ((l.map nfkcChar).map Char.toUpper)
        else (l.map nfkcChar).map Char.toUpper).map replPunct) :=
    (stripEnds_within _).subset hc
  by_cases hsp : isSpaceChar c = true
  · exact Or.inl (squeezeAux_spacesOk false _ c hmem hsp)
  · rcases squeezeAux_mem false _ hmem with h1 | h1
    · exact Or.inl h1
    · rcases List.mem_map.mp h1 with ⟨d, hd, hrd⟩
      rw [replPunct] at hrd
      by_cases h2 : (isWordChar d || isSpaceChar d) = true
      · rw [if_pos h2] at hrd
        subst hrd
        rcases Bool.or_eq_true_iff.mp h2 with hw | hs
        · refine Or.inr ⟨hw, ?_⟩
          have hd2 : d ∈ (l.map nfkcChar).map Char.toUpper := by
            by_cases hct : ((l.map nfkcChar).map Char.toUpper).contains '/' = true
            · rw [if_pos hct] at hd; exact mem_lastSegment hd
            · rw [if_neg hct] at hd; exact hd
          rcases List.mem_map.mp hd2 with ⟨x, _, hx⟩
          rw [← hx]
          exact toUpper_idem x
        · exact absurd hs hsp
      · rw [if_neg h2] at hrd
        exact Or.inl hrd.symm

theorem normalizeCore_fix {r : List Char} (hg : ∀ c ∈ r, GoodChar c)
    (hso : SpacesOk r) (hna : NoAdjSpaces r)
    (hh : ∀ c, r.head? = some c → isSpaceChar c = false)
    (hl : ∀ c, r.getLast? = some c → isSpaceChar c = false) :
    normalizeCore r = r := by
  rw [normalizeCore_eq]
  rw [map_fix (fun c hc => (hg c hc).nfkc)]
  rw [map_fix (fun c hc => (hg c hc).upper)]
  have h3 : r.contains '/' = false := by
    refine Bool.eq_false_iff.mpr ?_
    intro hc
    exact (hg _ (List.elem_iff.mp hc)).ne_slash rfl
  rw [h3]
  simp only [Bool.false_eq_true, if_false]
  rw [map_fix (fun c hc => (hg c hc).repl)]
  show stripEnds (squeezeAux false r) = r
  rw [squeezeAux_fix hso hna, stripEnds_fix hh hl]

theorem normalizeCore_idem (l : List Char) :
    normalizeCore (normalizeCore l) = normalizeCore l := by
  refine normalizeCore_fix normalizeCore_good ?_ ?_ ?_ ?_
  · intro c hc hs
    exact squeezeAux_spacesOk false _ c ((stripEnds_within _).subset hc) hs
  · exact List.Chain'.infix (squeezeAux_noAdj false _) (stripEnds_within _)
  · intro c hc
    exact stripEnds_head_not hc
  · intro c hc
    exact stripEnds_getLast_not hc

/-- C6.  Description normalization is total (it is a Lean function defined
for every `Option String` input), pure (a mathematical function), and
idempotent: `normalize_text (normalize_text s) = normalize_text s` for
every input; a null (`none`) or empty input yields the empty string. -/
theorem normalize_text_idem :
    (∀ s : Option String,
      normalize_text (some (normalize_text s)) = normalize_text s) ∧
    normalize_text none = "" ∧ normalize_text (some "") = "" := by
  refine ⟨?_, rfl, rfl⟩
  intro s
  match s with
  | none => rfl
  | some s =>
    by_cases he : s == ""
    · have h1 : normalize_text (some s) = "" := by rw [normalize_text, if_pos he]
      rw [h1]
      rfl
    · have h1 : normalize_text (some s) = String.mk (normalizeCore s.data) := by
        rw [normalize_text, if_neg he]
      rw [h1]
      by_cases he2 : String.mk (normalizeCore s.data) == ""
      · have h2 : normalizeCore s.data = [] :=
          congrArg String.data (beq_iff_eq.mp he2)
        rw [normalize_text, if_pos he2, h2]
      · rw [normalize_text, if_neg he2]
        show String.mk (normalizeCore (normalizeCore s.data)) = _
        rw [normalizeCore_idem]

/-! ### The slash rule (normalizer step 3) -/

/-- The value `normalize_text` computes when the width-folded, uppercased
text contains a slash: punctuation replacement and whitespace collapsing
applied to the segment after the last slash only. -/
def slashResult (s : String) : String :=
  String.mk (stripEnds (squeezeSpaces
    ((lastSegment ((s.data.map nfkcChar).map Char.toUpper)).map replPunct)))

/-- C7.  For every input whose width-normalized, uppercased form contains
a slash, normalization keeps only the trailing segment after the last
slash (then replaces punctuation and collapses whitespace); the full-width
scenario input normalizes to exactly the Chinese goods name after the
slash. -/
theorem normalize_slash_rule :
    (∀ s : String,
      ((s.data.map nfkcChar).map Char.toUpper).contains '/' = true →
      normalize_text (some s) = slashResult s) ∧
    normalize_text (some "Ａ１２／中文貨名") = "中文貨名" := by
  constructor
  · intro s hc
    have hne : ¬(s == "") = true := by
      intro he
      have hs : s = "" := beq_iff_eq.mp he
      subst hs
      simp [List.contains] at hc
    rw [normalize_text, if_neg hne, normalizeCore_eq, if_pos hc]
    rfl
  · rfl

/-- Witness for C7: the scenario input's cleaned form does contain a slash,
and the theorem applies to it. -/
theorem normalize_slash_rule_witness :
    (("Ａ１２／中文貨名".data.map nfkcChar).map Char.toUpper).contains '/' = true ∧
    normalize_text (some "Ａ１２／中文貨名") = slashResult "Ａ１２／中文貨名" :=
  ⟨by decide, normalize_slash_rule.1 "Ａ１２／中文貨名" (by decide)⟩

/-! ### Linkage-key canonicalization facts (C8, C10) -/

theorem keep_toUpper {c : Char}
    (h : (!(isSpaceChar c || c == '/' || c == '-')) = true) :
    (!(isSpaceChar (Char.toUpper c) || Char.toUpper c == '/' ||
       Char.toUpper c == '-')) = true := by
  by_cases hl : c.toNat ≥ 97 ∧ c.toNat ≤ 122
  · have hn : (Char.toUpper c).toNat = c.toNat - 32 := toNat_toUpper_of_lower hl
    simp only [Bool.not_eq_eq_eq_not, Bool.not_true, Bool.or_eq_false_iff,
      beq_eq_false_iff_ne] at *
    refine ⟨⟨?_, ?_⟩, ?_⟩
    · simp only [isSpaceChar, decide_eq_false_iff_not]
      omega
    · intro he
      have : (Char.toUpper c).toNat = 47 := by rw [he]; rfl
      omega
    · intro he
      have : (Char.toUpper c).toNat = 45 := by rw [he]; rfl
      omega
  · rw [toUpper_of_not_lower hl]
    exact h

/-- C8.  Linkage-key canonicalization is total (a Lean function defined on
every string) and idempotent, its output never contains a whitespace
character, a slash or a hyphen, and the two scenario identifier pairs
(master "AY / LD 01" with house " jm 0h3 ", and master "AYLD01" with house
"JM0H3") both canonicalize to the same linkage key "AYLD01_JM0H3". -/
theorem canonicalize_idem :
    (∀ s : String, canonicalize (canonicalize s) = canonicalize s) ∧
    (∀ s : String, (canonicalize s).data.all
      (fun c => !(isSpaceChar c || c == '/' || c == '-')) = true) ∧
    linkKey "AY / LD 01" " jm 0h3 " = "AYLD01_JM0H3" ∧
    linkKey "AYLD01" "JM0H3" = "AYLD01_JM0H3" := by
  have hall : ∀ s : String, ∀ c ∈ (canonicalize s).data,
      (!(isSpaceChar c || c == '/' || c == '-')) = true := by
    intro s c hc
    rcases List.mem_map.mp hc with ⟨d, hd, hdc⟩
    subst hdc
    exact keep_toUpper (List.mem_filter.mp hd).2
  refine ⟨?_, ?_, by decide, by decide⟩
  · intro s
    show String.mk (((canonicalize s).data.filter _).map Char.toUpper) = _
    rw [List.filter_eq_self.mpr (hall s)]
    show String.mk (((s.data.filter _).map Char.toUpper).map Char.toUpper) = _
    rw [List.map_map]
    exact congrArg String.mk (List.map_congr_left (fun a _ => toUpper_idem a))
  · intro s
    exact List.all_eq_true.mpr (hall s)

/-- C10.  The linkage-key builder is not injective: canonicalization keeps
underscores and the two cleaned identifiers are joined with an underscore,
so the distinct identifier pairs ("A_B", "C") and ("A", "B_C") collide on
the same linkage key — items of distinct physical shipments would be
counted, validated and aligned together. -/
theorem linkKey_not_injective :
    linkKey "A_B" "C" = linkKey "A" "B_C" ∧
    ("A_B", "C") ≠ (("A", "B_C") : String × String) := by
  exact ⟨by decide, by decide⟩

/-! ### Data model of the two input tables -/

/-- A row of `table_a_raw` as selected by `train_model` (batch_train.py
lines 66-71); the SQL WHERE clause excludes null identifiers and null
descriptions upstream, so all fields are plain values. -/
structure RawItem where
  mawb_no : String
  hawb_no : String
  item_no : Int
  description_original : String
deriving DecidableEq

/-- A row of `table_b_history` as selected by `train_model` (lines 73-77). -/
structure OfficialItem where
  mawb_no : String
  hawb_no : String
  item_sequence : Int
  description_official : String
  ccc_code : String
deriving DecidableEq

/-- The `link_key` column of a Table A row (line 87). -/
def RawItem.key (r : RawItem) : String := linkKey r.mawb_no r.hawb_no

/-- The `link_key` column of a Table B row (line 87). -/
def OfficialItem.key (r : OfficialItem) : String := linkKey r.mawb_no r.hawb_no

def rawKeys (ra : List RawItem) : List String := ra.map RawItem.key

def offKeys (rb : List OfficialItem) : List String := rb.map OfficialItem.key

/-- Per-key item count, one cell of `groupby('link_key').size()`. -/
def countKey (keys : List String) (k : String) : Nat := keys.count k

/-- `final_valid_keys` (batch_train.py lines 91-99): the index of the
Table A groupby (its distinct keys), intersected with the Table B index,
keeping only keys whose per-key counts agree exactly. -/
def finalValidKeys (ka kb : List String) : List String :=
  ka.dedup.filter (fun k => kb.contains k && (countKey ka k == countKey kb k))

/-! ### Row ordering used by sort_values -/

/-- Lexicographic row order on (string link key, integer ordinal), the
order of `sort_values(by=['link_key', ordinal_column])`. -/
def lexLE {α : Type} (f : α → String) (g : α → Int) (a b : α) : Prop :=
  f a < f b ∨ (f a = f b ∧ g a ≤ g b)

instance {α : Type} (f : α → String) (g : α → Int) : DecidableRel (lexLE f g) :=
  fun a b => by unfold lexLE; infer_instance

theorem lexLE_total {α : Type} (f : α → String) (g : α → Int) :
    ∀ a b, lexLE f g a b ∨ lexLE f g b a := by
  intro a b
  rcases lt_trichotomy (f a) (f b) with h | h | h
  · exact Or.inl (Or.inl h)
  · rcases le_total (g a) (g b) with h2 | h2
    · exact Or.inl (Or.inr ⟨h, h2⟩)
    · exact Or.inr (Or.inr ⟨h.symm, h2⟩)
  · exact Or.inr (Or.inl h)

theorem lexLE_trans {α : Type} (f : α → String) (g : α → Int) :
    ∀ {a b c}, lexLE f g a b → lexLE f g b c → lexLE f g a c := by
  rintro a b c (h1 | ⟨h1, h1'⟩) (h2 | ⟨h2, h2'⟩)
  · exact Or.inl (h1.trans h2)
  · exact Or.inl (lt_of_lt_of_eq h1 h2)
  · exact Or.inl (lt_of_eq_of_lt h1 h2)
  · exact Or.inr ⟨h1.trans h2, h1'.trans h2'⟩

instance {α : Type} (f : α → String) (g : α → Int) : IsTotal α (lexLE f g) :=
  ⟨lexLE_total f g⟩

instance {α : Type} (f : α → String) (g : α → Int) : IsTrans α (lexLE f g) :=
  ⟨fun _ _ _ => lexLE_trans f g⟩

/-! ### The position-based aligner -/

/-- `df_a_clean`: Table A rows restricted to the valid keys, sorted by
(link_key, item_no) (batch_train.py lines 109 and 113). -/
def validRaw (ra : List RawItem) (rb : List OfficialItem) : List RawItem :=
  List.insertionSort (lexLE RawItem.key RawItem.item_no)
    (ra.filter (fun r => (finalValidKeys (rawKeys ra) (offKeys rb)).contains r.key))

/-- `df_b_clean`: Table B rows restricted to the valid keys, sorted by
(link_key, item_sequence) (batch_train.py lines 110 and 114). -/
def validOff (ra : List RawItem) (rb : List OfficialItem) : List OfficialItem :=
  List.insertionSort (lexLE OfficialItem.key OfficialItem.item_sequence)
    (rb.filter (fun r => (finalValidKeys (rawKeys ra) (offKeys rb)).contains r.key))

/-- The positional pairing performed by
`zip(train_source, train_target_desc, train_target_ccc)` on the two sorted
tables (batch_train.py lines 117-126). -/
def alignedPairs (ra : List RawItem) (rb : List OfficialItem) :
    List (RawItem × OfficialItem) :=
  (validRaw ra rb).zip (validOff ra rb)

theorem mem_finalValidKeys_iff (ka kb : List String) (k : String) :
    k ∈ finalValidKeys ka kb ↔
      countKey ka k = countKey kb k ∧ 0 < countKey ka k := by
  unfold finalValidKeys countKey
  rw [List.mem_filter, List.mem_dedup, Bool.and_eq_true]
  constructor
  · rintro ⟨h1, _, h3⟩
    exact ⟨beq_iff_eq.mp h3, List.count_pos_iff.mpr h1⟩
  · rintro ⟨h1, h2⟩
    exact ⟨List.count_pos_iff.mp h2,
      List.elem_iff.mpr (List.count_pos_iff.mp (h1 ▸ h2)),
      beq_iff_eq.mpr h1⟩

theorem alignedPairs_key_mem {ra : List RawItem} {rb : List OfficialItem}
    {p : RawItem × OfficialItem} (hp : p ∈ alignedPairs ra rb) :
    p.1.key ∈ finalValidKeys (rawKeys ra) (offKeys rb) := by
  have h1 : p.1 ∈ validRaw ra rb := (List.of_mem_zip hp).1
  rw [validRaw, List.mem_insertionSort, List.mem_filter] at h1
  exact List.elem_iff.mp h1.2

/-- C5.  Validator soundness: a key is classified valid precisely when its
per-key item counts on the two sides are equal and positive (which forces
presence on both sides); an invalid key is discarded entirely — it
contributes no aligned pair at all, so no partial alignment of a
mismatched key ever occurs. -/
theorem validator_soundness :
    (∀ (ka kb : List String) (k : String),
      k ∈ finalValidKeys ka kb ↔
        countKey ka k = countKey kb k ∧ 0 < countKey ka k) ∧
    (∀ (ra : List RawItem) (rb : List OfficialItem) (k : String),
      k ∉ finalValidKeys (rawKeys ra) (offKeys rb) →
        (alignedPairs ra rb).filter (fun p => p.1.key == k) = []) := by
  refine ⟨mem_finalValidKeys_iff, ?_⟩
  intro ra rb k hk
  rw [List.filter_eq_nil_iff]
  intro p hp hkey
  exact hk (beq_iff_eq.mp hkey ▸ alignedPairs_key_mem hp)

/-! ### Key multiset equality of the two sorted sides -/

theorem count_map_key_filter_pos {α : Type} (f : α → String) (P : α → Bool)
    (k : String) : ∀ (l : List α), (∀ r ∈ l, f r = k → P r = true) →
    ((l.filter P).map f).count k = (l.map f).count k := by
  intro l
  induction l with
  | nil => intro _; rfl
  | cons a t ih =>
    intro h
    have ht := fun r hr => h r (List.mem_cons_of_mem _ hr)
    rw [List.filter_cons]
    by_cases hPa : P a = true
    · rw [if_pos hPa, List.map_cons, List.map_cons, List.count_cons,
        List.count_cons, ih ht]
    · rw [if_neg hPa, List.map_cons, List.count_cons, ih ht]
      have hne : ¬(f a == k) = true := by
        intro hb
        exact hPa (h a (List.mem_cons_self _ _) (beq_iff_eq.mp hb))
      simp [hne]

theorem count_map_key_filter_neg {α : Type} (f : α → String) (P : α → Bool)
    (k : String) : ∀ (l : List α), (∀ r ∈ l, f r = k → P r = false) →
    ((l.filter P).map f).count k = 0 := by
  intro l
  induction l with
  | nil => intro _; rfl
  | cons a t ih =>
    intro h
    have ht := fun r hr => h r (List.mem_cons_of_mem _ hr)
    rw [List.filter_cons]
    by_cases hPa : P a = true
    · rw [if_pos hPa, List.map_cons, List.count_cons, ih ht]
      have hne : ¬(f a == k) = true := by
        intro hb
        exact (Bool.eq_false_iff.mp
          (h a (List.mem_cons_self _ _) (beq_iff_eq.mp hb))) hPa
      simp [hne]
    · rw [if_neg hPa]
      exact ih ht

/-- The key columns of the two cleaned, sorted tables coincide
position-wise: same multiset of keys (valid keys have equal counts) and
same sorted order. -/
theorem validKeys_map_eq (ra : List RawItem) (rb : List OfficialItem) :
    (validRaw ra rb).map RawItem.key = (validOff ra rb).map OfficialItem.key := by
  haveI : IsAntisymm String (· ≤ ·) := ⟨fun _ _ => le_antisymm⟩
  have hsa : ((validRaw ra rb).map RawItem.key).Sorted (· ≤ ·) := by
    rw [List.Sorted, List.pairwise_map]
    refine (List.sorted_insertionSort _ _).imp ?_
    rintro a b (h | ⟨h, _⟩)
    · exact le_of_lt h
    · exact le_of_eq h
  have hsb : ((validOff ra rb).map OfficialItem.key).Sorted (· ≤ ·) := by
    rw [List.Sorted, List.pairwise_map]
    refine (List.sorted_insertionSort _ _).imp ?_
    rintro a b (h | ⟨h, _⟩)
    · exact le_of_lt h
    · exact le_of_eq h
  have hperm : ((validRaw ra rb).map RawItem.key).Perm
      ((validOff ra rb).map OfficialItem.key) := by
    rw [List.perm_iff_count]
    intro k
    have pa : ((validRaw ra rb).map RawItem.key).count k =
        ((ra.filter (fun r =>
          (finalValidKeys (rawKeys ra) (offKeys rb)).contains r.key)).map
            RawItem.key).count k :=
      ((List.perm_insertionSort _ _).map _).count_eq k
    have pb : ((validOff ra rb).map OfficialItem.key).count k =
        ((rb.filter (fun r =>
          (finalValidKeys (rawKeys ra) (offKeys rb)).contains r.key)).map
            OfficialItem.key).count k :=
      ((List.perm_insertionSort _ _).map _).count_eq k
    rw [pa, pb]
    by_cases hk : k ∈ finalValidKeys (rawKeys ra) (offKeys rb)
    · rw [count_map_key_filter_pos _ _ _ ra
        (fun r _ hr => List.elem_iff.mpr (by rw [hr]; exact hk))]
      rw [count_map_key_filter_pos _ _ _ rb
        (fun r _ hr => List.elem_iff.mpr (by rw [hr]; exact hk))]
      exact ((mem_finalValidKeys_iff _ _ _).mp hk).1
    · rw [count_map_key_filter_neg _ _ _ ra
        (fun r _ hr => Bool.eq_false_iff.mpr
          (fun hc => hk (by rw [← hr]; exact List.elem_iff.mp hc)))]
      rw [count_map_key_filter_neg _ _ _ rb
        (fun r _ hr => Bool.eq_false_iff.mpr
          (fun hc => hk (by rw [← hr]; exact List.elem_iff.mp hc)))]
  exact List.eq_of_perm_of_sorted hperm hsa hsb

/-! ### Zip facts under equal key columns -/

theorem zip_keys_eq {α β : Type} (f : α → String) (g : β → String) :
    ∀ (la : List α) (lb : List β), la.map f = lb.map g →
    ∀ p ∈ la.zip lb, f p.1 = g p.2 := by
  intro la
  induction la with
  | nil => intro lb _ p hp; simp at hp
  | cons a ta ih =>
    intro lb h p hp
    cases lb with
    | nil => simp at hp
    | cons b tb =>
      simp only [List.map_cons, List.cons.injEq] at h
      rw [List.zip_cons_cons] at hp
      rcases List.mem_cons.mp hp with h1 | h1
      · rw [h1]; exact h.1
      · exact ih tb h.2 p h1

theorem zip_filter_key {α β : Type} (f : α → String) (g : β → String) (k : String) :
    ∀ (la : List α) (lb : List β), la.map f = lb.map g →
    (la.zip lb).filter (fun p => f p.1 == k) =
      (la.filter (fun x => f x == k)).zip (lb.filter (fun y => g y == k)) := by
  intro la
  induction la with
  | nil =>
    intro lb h
    cases lb with
    | nil => rfl
    | cons b tb => simp at h
  | cons a ta ih =>
    intro lb h
    cases lb with
    | nil => simp at h
    | cons b tb =>
      simp only [List.map_cons, List.cons.injEq] at h
      obtain ⟨hab, ht⟩ := h
      rw [List.zip_cons_cons, List.filter_cons, List.filter_cons, List.filter_cons]
      by_cases hk : (f a == k) = true
      · have hgb : (g b == k) = true := by rw [← hab]; exact hk
        rw [if_pos hk, if_pos hk, if_pos hgb, List.zip_cons_cons, ih tb ht]
      · have hgb : ¬(g b == k) = true := by rw [← hab]; exact hk
        rw [if_neg hk, if_neg hk, if_neg hgb, ih tb ht]

theorem length_filter_key {α : Type} (f : α → String) (k : String) (l : List α) :
    (l.filter (fun x => f x == k)).length = (l.map f).count k := by
  induction l with
  | nil => rfl
  | cons a t ih =>
    rw [List.filter_cons, List.map_cons, List.count_cons]
    by_cases hk : (f a == k) = true
    · rw [if_pos hk, List.length_cons, ih, if_pos hk]
    · rw [if_neg hk, ih, if_neg hk]
      omega

/-- Two lists that are permutations of each other, both weakly sorted by an
integer measure that is duplicate-free, are equal. -/
theorem eq_of_perm_sorted_nodup {α : Type} (g : α → Int) :
    ∀ (l₁ l₂ : List α), l₁.Perm l₂ →
    l₁.Pairwise (fun a b => g a ≤ g b) → l₂.Pairwise (fun a b => g a ≤ g b) →
    (l₁.map g).Nodup → l₁ = l₂ := by
  intro l₁
  induction l₁ with
  | nil => intro l₂ hp _ _ _; exact (hp.symm.eq_nil).symm ▸ rfl
  | cons a t ih =>
    intro l₂ hp hs₁ hs₂ hn
    cases l₂ with
    | nil => exact absurd hp.eq_nil (List.cons_ne_nil a t)
    | cons b t₂ =>
      by_cases hab : a = b
      · subst hab
        have hp' := hp.cons_inv
        rw [ih t₂ hp' (List.pairwise_cons.mp hs₁).2 (List.pairwise_cons.mp hs₂).2
          (List.nodup_cons.mp (by rwa [List.map_cons] at hn)).2]
      · exfalso
        have hbmem : b ∈ a :: t := hp.mem_iff.mpr (List.mem_cons_self b t₂)
        have hb : b ∈ t := by
          rcases List.mem_cons.mp hbmem with h1 | h1
          · exact absurd h1.symm hab
          · exact h1
        have hamem : a ∈ b :: t₂ := hp.subset (List.mem_cons_self a t)
        have ha : a ∈ t₂ := by
          rcases List.mem_cons.mp hamem with h1 | h1
          · exact absurd h1 hab
          · exact h1
        have h1 : g a ≤ g b := (List.pairwise_cons.mp hs₁).1 b hb
        have h2 : g b ≤ g a := (List.pairwise_cons.mp hs₂).1 a ha
        have heq : g a = g b := le_antisymm h1 h2
        have hmem : g a ∈ t.map g := heq ▸ List.mem_map_of_mem g hb
        exact (List.nodup_cons.mp (by rwa [List.map_cons] at hn)).1 hmem

/-! ### Sorting a single key's items by their ordinal -/

def intLEDec {α : Type} (ord : α → Int) : DecidableRel (fun a b => ord a ≤ ord b) :=
  fun a b => Int.decLe (ord a) (ord b)

/-- "The items of one key sorted by their ordinal column ascending". -/
def sortByOrd {α : Type} (ord : α → Int) (l : List α) : List α :=
  @List.insertionSort α (fun a b => ord a ≤ ord b) (intLEDec ord) l

/-- Restricting the globally (key, ordinal)-sorted, validity-filtered table
to one valid key yields exactly that key's items sorted by ordinal —
provided the key's ordinals are duplicate-free (with duplicated ordinals
the "i-th item by ordinal" is not well defined; flagged open in the spec). -/
theorem filter_sorted_valid {α : Type} (key : α → String) (ord : α → Int)
    (P : α → Bool) (l : List α) (k : String)
    (hP : ∀ r ∈ l, key r = k → P r = true)
    (hnd : ((l.filter (fun r => key r == k)).map ord).Nodup) :
    (List.insertionSort (lexLE key ord) (l.filter P)).filter (fun r => key r == k)
      = sortByOrd ord (l.filter (fun r => key r == k)) := by
  haveI hto : IsTotal α (fun a b => ord a ≤ ord b) := ⟨fun a b => Int.le_total _ _⟩
  haveI htr : IsTrans α (fun a b => ord a ≤ ord b) := ⟨fun _ _ _ h1 h2 => le_trans h1 h2⟩
  have hswap : (l.filter P).filter (fun r => key r == k)
      = l.filter (fun r => key r == k) := by
    rw [List.filter_filter]
    apply List.filter_congr
    intro r hr
    by_cases hkr : (key r == k) = true
    · simp [hkr, hP r hr (beq_iff_eq.mp hkr)]
    · simp [hkr]
  have hperm1 : ((List.insertionSort (lexLE key ord) (l.filter P)).filter
      (fun r => key r == k)).Perm (l.filter (fun r => key r == k)) := by
    have h := (List.perm_insertionSort (lexLE key ord) (l.filter P)).filter
      (fun r => key r == k)
    rwa [hswap] at h
  have hperm : ((List.insertionSort (lexLE key ord) (l.filter P)).filter
      (fun r => key r == k)).Perm (sortByOrd ord (l.filter (fun r => key r == k))) :=
    hperm1.trans (@List.perm_insertionSort α (fun a b => ord a ≤ ord b)
      (intLEDec ord) (l.filter (fun r => key r == k))).symm
  have hs1 : ((List.insertionSort (lexLE key ord) (l.filter P)).filter
      (fun r => key r == k)).Pairwise (fun a b => ord a ≤ ord b) := by
    have hlex : (List.insertionSort (lexLE key ord) (l.filter P)).Pairwise
        (lexLE key ord) := List.sorted_insertionSort _ _
    have hfil : ((List.insertionSort (lexLE key ord) (l.filter P)).filter
        (fun r => key r == k)).Pairwise (lexLE key ord) :=
      hlex.sublist (List.filter_sublist _)
    refine List.Pairwise.imp_of_mem ?_ hfil
    intro a b hma hmb hab
    have hka : key a = k := beq_iff_eq.mp (List.mem_filter.mp hma).2
    have hkb : key b = k := beq_iff_eq.mp (List.mem_filter.mp hmb).2
    rcases hab with h1 | ⟨_, h2⟩
    · rw [hka, hkb] at h1
      exact absurd h1 (lt_irrefl k)
    · exact h2
  have hs2 : (sortByOrd ord (l.filter (fun r => key r == k))).Pairwise
      (fun a b => ord a ≤ ord b) :=
    @List.sorted_insertionSort α (fun a b => ord a ≤ ord b) (intLEDec ord)
      hto htr (l.filter (fun r => key r == k))
  have hnd1 : (((List.insertionSort (lexLE key ord) (l.filter P)).filter
      (fun r => key r == k)).map ord).Nodup :=
    ((hperm1.map ord).nodup_iff).mpr hnd
  exact eq_of_perm_sorted_nodup ord _ _ hperm hs1 hs2 hnd1

/-- The rows of one linkage key, in input order. -/
def rawOfKey (ra : List RawItem) (k : String) : List RawItem :=
  ra.filter (fun r => r.key == k)

/-- The Table B rows of one linkage key, in input order. -/
def offOfKey (rb : List OfficialItem) (k : String) : List OfficialItem :=
  rb.filter (fun r => r.key == k)

/-- C4.  Alignment completeness: every aligned pair joins a raw item and
an official item of the same linkage key (no cross-key pairing); for every
valid key the aligner emits exactly `count_A(key)` correspondences; and
— whenever the key's ordinals and sequences are duplicate-free, so that
"the i-th item" is well defined — the pairs of that key are exactly the
i-th raw item (sorted by `item_no` ascending) matched with the i-th
official item (sorted by `item_sequence` ascending); no item of a valid
key is dropped. -/
theorem aligner_complete (ra : List RawItem) (rb : List OfficialItem) :
    (∀ p ∈ alignedPairs ra rb, p.1.key = p.2.key) ∧
    (∀ k ∈ finalValidKeys (rawKeys ra) (offKeys rb),
      ((alignedPairs ra rb).filter (fun p => p.1.key == k)).length
          = countKey (rawKeys ra) k ∧
      ((((rawOfKey ra k).map RawItem.item_no).Nodup ∧
        ((offOfKey rb k).map OfficialItem.item_sequence).Nodup) →
        (alignedPairs ra rb).filter (fun p => p.1.key == k)
          = (sortByOrd RawItem.item_no (rawOfKey ra k)).zip
              (sortByOrd OfficialItem.item_sequence (offOfKey rb k)))) := by
  constructor
  · intro p hp
    exact zip_keys_eq RawItem.key OfficialItem.key _ _ (validKeys_map_eq ra rb) p hp
  · intro k hk
    have hkeq := validKeys_map_eq ra rb
    have hcountA : ((validRaw ra rb).map RawItem.key).count k
        = countKey (rawKeys ra) k := by
      have p1 : ((validRaw ra rb).map RawItem.key).count k
          = ((ra.filter (fun r =>
              (finalValidKeys (rawKeys ra) (offKeys rb)).contains r.key)).map
                RawItem.key).count k :=
        ((List.perm_insertionSort _ _).map _).count_eq k
      rw [p1, count_map_key_filter_pos _ _ _ ra
        (fun r _ hr => List.elem_iff.mpr (by rw [hr]; exact hk))]
      rfl
    have hcountB : ((validOff ra rb).map OfficialItem.key).count k
        = countKey (rawKeys ra) k := by
      rw [← hkeq]
      exact hcountA
    constructor
    · unfold alignedPairs
      rw [zip_filter_key RawItem.key OfficialItem.key k _ _ hkeq,
        List.length_zip, length_filter_key, length_filter_key, hcountA, hcountB,
        Nat.min_self]
    · rintro ⟨hndA, hndB⟩
      unfold alignedPairs
      rw [zip_filter_key RawItem.key OfficialItem.key k _ _ hkeq]
      have e1 : (validRaw ra rb).filter (fun x => RawItem.key x == k)
          = sortByOrd RawItem.item_no (rawOfKey ra k) := by
        unfold validRaw
        exact filter_sorted_valid RawItem.key RawItem.item_no _ ra k
          (fun r _ hr => List.elem_iff.mpr (by rw [hr]; exact hk)) hndA
      have e2 : (validOff ra rb).filter (fun y => OfficialItem.key y == k)
          = sortByOrd OfficialItem.item_sequence (offOfKey rb k) := by
        unfold validOff
        exact filter_sorted_valid OfficialItem.key OfficialItem.item_sequence _ rb k
          (fun r _ hr => List.elem_iff.mpr (by rw [hr]; exact hk)) hndB
      rw [e1, e2]

/-! ### Scenario data used by the witnesses -/

/-- Table A of the spec scenario: master "AY / LD 01", house " jm 0h3 ",
three items. -/
def exRawA : List RawItem :=
  [⟨"AY / LD 01", " jm 0h3 ", 1, "Ａ１２／中文貨名"⟩,
   ⟨"AY / LD 01", " jm 0h3 ", 2, "apple juice"⟩,
   ⟨"AY / LD 01", " jm 0h3 ", 3, "BANANA"⟩]

/-- Table B of the spec scenario: master "AYLD01", house "JM0H3", three
items. -/
def exOffB : List OfficialItem :=
  [⟨"AYLD01", "JM0H3", 1, "中文貨名", "1111.11.00"⟩,
   ⟨"AYLD01", "JM0H3", 2, "CONCENTRATED APPLE JUICE", "2009.71.00"⟩,
   ⟨"AYLD01", "JM0H3", 3, "BANANA FRESH", "0803.90.00"⟩]

/-- Witness for C5: in the scenario run the key "XX_YY" is invalid and
contributes no aligned pair. -/
theorem validator_soundness_witness :
    (alignedPairs exRawA exOffB).filter (fun p => p.1.key == "XX_YY") = [] :=
  validator_soundness.2 exRawA exOffB "XX_YY" (by decide)

/-- Witness for C4: in the scenario run the valid key "AYLD01_JM0H3" gets
exactly its three pairs, equal to the positional zip of the per-key sorts. -/
theorem aligner_complete_witness :
    ((alignedPairs exRawA exOffB).filter
        (fun p => p.1.key == "AYLD01_JM0H3")).length
      = countKey (rawKeys exRawA) "AYLD01_JM0H3" ∧
    (alignedPairs exRawA exOffB).filter (fun p => p.1.key == "AYLD01_JM0H3")
      = (sortByOrd RawItem.item_no (rawOfKey exRawA "AYLD01_JM0H3")).zip
          (sortByOrd OfficialItem.item_sequence
            (offOfKey exOffB "AYLD01_JM0H3")) := by
  have h := (aligner_complete exRawA exOffB).2 "AYLD01_JM0H3" (by decide)
  exact ⟨h.1, h.2 ⟨by decide, by decide⟩⟩

/-! ### The knowledge aggregator (majority vote, batch_train.py lines 121-146) -/

/-- One correspondence triple handed to the voting loop: the normalized
source description together with the official outcome (description, code)
(batch_train.py line 126). -/
structure Corr where
  src : String
  official : String
  ccc : String
deriving DecidableEq

/-- The outcome pair voted on (line 133). -/
def Corr.pair (t : Corr) : String × String := (t.official, t.ccc)

/-- One row of the final knowledge base (lines 141-146). -/
structure KRecord where
  original_description : String
  official_description : String
  ccc_code : String
  frequency : Nat
deriving DecidableEq

/-- Keeps the first occurrence of every element, in order of first
appearance: the iteration order of the insertion-ordered `knowledge_map`
dict and of each `Counter`. -/
def firstSeenAux {α : Type} [DecidableEq α] : List α → List α → List α
  | _, [] => []
  | seen, a :: t =>
    if a ∈ seen then firstSeenAux seen t
    else a :: firstSeenAux (a :: seen) t

def firstSeen {α : Type} [DecidableEq α] (l : List α) : List α := firstSeenAux [] l

theorem mem_firstSeenAux {α : Type} [DecidableEq α] {x : α} :
    ∀ (l seen : List α), x ∈ firstSeenAux seen l ↔ (x ∈ l ∧ x ∉ seen) := by
  intro l
  induction l with
  | nil => intro seen; simp [firstSeenAux]
  | cons a t ih =>
    intro seen
    by_cases ha : a ∈ seen
    · rw [firstSeenAux, if_pos ha, ih]
      constructor
      · rintro ⟨h1, h2⟩
        exact ⟨List.mem_cons_of_mem _ h1, h2⟩
      · rintro ⟨h1, h2⟩
        rcases List.mem_cons.mp h1 with h3 | h3
        · exact absurd (h3 ▸ ha) h2
        · exact ⟨h3, h2⟩
    · rw [firstSeenAux, if_neg ha]
      constructor
      · intro h1
        rcases List.mem_cons.mp h1 with h3 | h3
        · exact ⟨h3 ▸ List.mem_cons_self _ _, h3 ▸ ha⟩
        · have := (ih (a :: seen)).mp h3
          exact ⟨List.mem_cons_of_mem _ this.1,
            fun hc => this.2 (List.mem_cons_of_mem _ hc)⟩
      · rintro ⟨h1, h2⟩
        rcases List.mem_cons.mp h1 with h3 | h3
        · exact h3 ▸ List.mem_cons_self _ _
        · by_cases hxa : x = a
          · exact hxa ▸ List.mem_cons_self _ _
          · exact List.mem_cons_of_mem _ ((ih (a :: seen)).mpr
              ⟨h3, fun hc => (List.mem_cons.mp hc).elim hxa h2⟩)

theorem mem_firstSeen {α : Type} [DecidableEq α] {x : α} {l : List α} :
    x ∈ firstSeen l ↔ x ∈ l := by
  rw [firstSeen, mem_firstSeenAux]
  simp

theorem nodup_firstSeenAux {α : Type} [DecidableEq α] :
    ∀ (l seen : List α), (firstSeenAux seen l).Nodup := by
  intro l
  induction l with
  | nil => intro seen; exact List.nodup_nil
  | cons a t ih =>
    intro seen
    by_cases ha : a ∈ seen
    · rw [firstSeenAux, if_pos ha]; exact ih seen
    · rw [firstSeenAux, if_neg ha]
      refine List.nodup_cons.mpr ⟨?_, ih (a :: seen)⟩
      intro hc
      exact ((mem_firstSeenAux t (a :: seen)).mp hc).2 (List.mem_cons_self _ _)

theorem nodup_firstSeen {α : Type} [DecidableEq α] (l : List α) :
    (firstSeen l).Nodup := nodup_firstSeenAux l []

theorem firstSeen_cons_of_ne_nil {α : Type} [DecidableEq α] {l : List α}
    (h : l ≠ []) : firstSeen l ≠ [] := by
  cases l with
  | nil => exact absurd rfl h
  | cons a t =>
    rw [firstSeen, firstSeenAux, if_neg (List.not_mem_nil a)]
    exact List.cons_ne_nil _ _

/-! ### Nat maxima over lists -/

theorem le_foldr_max {x : Nat} : ∀ {l : List Nat}, x ∈ l → x ≤ l.foldr max 0 := by
  intro l
  induction l with
  | nil => intro h; simp at h
  | cons a t ih =>
    intro h
    rcases List.mem_cons.mp h with h1 | h1
    · exact h1 ▸ Nat.le_max_left _ _
    · exact (ih h1).trans (Nat.le_max_right _ _)

theorem foldr_max_le {m : Nat} : ∀ {l : List Nat}, (∀ x ∈ l, x ≤ m) →
    l.foldr max 0 ≤ m := by
  intro l
  induction l with
  | nil => intro _; exact Nat.zero_le m
  | cons a t ih =>
    intro h
    exact Nat.max_le.mpr ⟨h a (List.mem_cons_self _ _),
      ih (fun x hx => h x (List.mem_cons_of_mem _ hx))⟩

theorem foldr_max_mem_iff {l₁ l₂ : List Nat} (h : ∀ x, x ∈ l₁ ↔ x ∈ l₂) :
    l₁.foldr max 0 = l₂.foldr max 0 := by
  have h1 : ∀ (u v : List Nat), (∀ x, x ∈ u ↔ x ∈ v) →
      u.foldr max 0 ≤ v.foldr max 0 := by
    intro u v huv
    refine foldr_max_le ?_
    intro x hx
    exact le_foldr_max ((huv x).mp hx)
  exact le_antisymm (h1 l₁ l₂ h) (h1 l₂ l₁ (fun x => (h x).symm))

/-! ### The running argmax of Counter.most_common(1) -/

/-- One step of the tally maximum: only a strictly greater count replaces
the current best, so ties keep the earlier (first-seen) entry, exactly the
stable behaviour of `Counter.most_common`. -/
def pickStep {β : Type} (b x : β × Nat) : β × Nat := if x.2 > b.2 then x else b

theorem find?_cons_pos' {α : Type} (p : α → Bool) (a : α) (l : List α)
    (h : p a = true) : List.find? p (a :: l) = some a :=
  List.find?_cons_of_pos l h

theorem find?_cons_neg' {α : Type} (p : α → Bool) (a : α) (l : List α)
    (h : ¬ p a = true) : List.find? p (a :: l) = List.find? p l :=
  List.find?_cons_of_neg l h

theorem pickArg {β : Type} : ∀ (t : List (β × Nat)) (e : β × Nat),
    (t.foldl pickStep e = e ∨ t.foldl pickStep e ∈ t) ∧
    e.2 ≤ (t.foldl pickStep e).2 ∧
    (∀ x ∈ t, x.2 ≤ (t.foldl pickStep e).2) ∧
    (e :: t).find? (fun x => x.2 == (t.foldl pickStep e).2)
      = some (t.foldl pickStep e) := by
  intro t
  induction t with
  | nil =>
    intro e
    refine ⟨Or.inl rfl, le_refl _, by simp, ?_⟩
    rw [find?_cons_pos' _ _ _ (by simp)]
    rfl
  | cons x t ih =>
    intro e
    rw [List.foldl_cons]
    obtain ⟨hmem, hle, hall, hfind⟩ := ih (pickStep e x)
    have hex : e.2 ≤ (pickStep e x).2 := by
      rw [pickStep]
      split
      · next h => exact Nat.le_of_lt h
      · exact le_refl _
    have hxx : x.2 ≤ (pickStep e x).2 := by
      rw [pickStep]
      split
      · exact le_refl _
      · next h => exact Nat.le_of_not_lt h
    refine ⟨?_, hex.trans hle, ?_, ?_⟩
    · rcases hmem with h1 | h1
      · rw [h1, pickStep]
        split
        · exact Or.inr (List.mem_cons_self _ _)
        · exact Or.inl rfl
      · exact Or.inr (List.mem_cons_of_mem _ h1)
    · intro y hy
      rcases List.mem_cons.mp hy with h1 | h1
      · exact h1 ▸ (hxx.trans hle)
      · exact hall y h1
    · by_cases hgt : x.2 > e.2
      · have hstep : pickStep e x = x := by rw [pickStep, if_pos hgt]
        rw [hstep] at hfind hle ⊢
        have hpe : ¬((fun z : β × Nat => z.2 == (t.foldl pickStep x).2) e) = true := by
          simp only [beq_iff_eq]
          omega
        rw [find?_cons_neg' (fun z : β × Nat => z.2 == (t.foldl pickStep x).2)
          e (x :: t) hpe]
        exact hfind
      · have hstep : pickStep e x = e := by rw [pickStep, if_neg hgt]
        rw [hstep] at hfind hle ⊢
        by_cases hpe : ((fun z : β × Nat => z.2 == (t.foldl pickStep e).2) e) = true
        · rw [find?_cons_pos' (fun z : β × Nat => z.2 == (t.foldl pickStep e).2)
            e (x :: t) hpe]
          rw [find?_cons_pos' (fun z : β × Nat => z.2 == (t.foldl pickStep e).2)
            e t hpe] at hfind
          exact hfind
        · rw [find?_cons_neg' (fun z : β × Nat => z.2 == (t.foldl pickStep e).2)
            e t hpe] at hfind
          rw [find?_cons_neg' (fun z : β × Nat => z.2 == (t.foldl pickStep e).2)
            e (x :: t) hpe]
          have hxne : ¬((fun z : β × Nat => z.2 == (t.foldl pickStep e).2) x) = true := by
            have h2 : ¬ e.2 = (t.foldl pickStep e).2 := by simpa using hpe
            have h3 : x.2 ≤ e.2 := Nat.le_of_not_lt hgt
            simp only [beq_iff_eq]
            omega
          rw [find?_cons_neg' (fun z : β × Nat => z.2 == (t.foldl pickStep e).2)
            x t hxne]
          exact hfind

/-! ### The aggregator itself -/

/-- The source column of the voting loop with empty normalized sources
skipped (batch_train.py line 127); its first-seen order is the iteration
order of `knowledge_map`. -/
def srcsOf (ts : List Corr) : List String :=
  (ts.filter (fun t => !(t.src == ""))).map Corr.src

/-- The outcome multiset of one group: the (official, code) pairs of all
triples whose normalized source equals `s`. -/
def groupPairs (ts : List Corr) (s : String) : List (String × String) :=
  (ts.filter (fun t => t.src == s)).map Corr.pair

/-- The Counter of one group: each distinct pair, in first-seen order,
with its occurrence count. -/
def tally (g : List (String × String)) : List ((String × String) × Nat) :=
  (firstSeen g).map (fun p => (p, g.count p))

/-- `counter.most_common(1)[0]` (batch_train.py line 138): the entry with
the strictly highest count, ties resolved to the first-seen entry. -/
def pickMax : List ((String × String) × Nat) → Option ((String × String) × Nat)
  | [] => none
  | e :: t => some (t.foldl pickStep e)

/-- The maximum occurrence count in a group's outcome multiset. -/
def maxCount (g : List (String × String)) : Nat :=
  (g.map (fun p => g.count p)).foldr max 0

/-- The knowledge record produced for one normalized source description
(batch_train.py lines 137-146); the `none` branch is unreachable because
every aggregated group is non-empty. -/
def mkRecord (ts : List Corr) (s : String) : KRecord :=
  match pickMax (tally (groupPairs ts s)) with
  | some (p, c) => ⟨s, p.1, p.2, c⟩
  | none => ⟨s, "", "", 0⟩

/-- `final_records` (batch_train.py lines 124-146): one record per
distinct non-empty normalized source, in first-seen order. -/
def aggregate (ts : List Corr) : List KRecord :=
  (firstSeen (srcsOf ts)).map (mkRecord ts)

theorem mkRecord_orig (ts : List Corr) (s : String) :
    (mkRecord ts s).original_description = s := by
  unfold mkRecord
  cases hp : pickMax (tally (groupPairs ts s)) with
  | none => rfl
  | some e => rfl

theorem maxCount_eq_tally_max (g : List (String × String)) :
    maxCount g = ((tally g).map (fun e => e.2)).foldr max 0 := by
  unfold maxCount tally
  rw [List.map_map]
  refine foldr_max_mem_iff ?_
  intro x
  constructor
  · intro hx
    rcases List.mem_map.mp hx with ⟨p, hp, hpx⟩
    exact List.mem_map.mpr ⟨p, mem_firstSeen.mpr hp, hpx⟩
  · intro hx
    rcases List.mem_map.mp hx with ⟨p, hp, hpx⟩
    exact List.mem_map.mpr ⟨p, mem_firstSeen.mp hp, hpx⟩

theorem mem_srcsOf {ts : List Corr} {s : String} :
    s ∈ srcsOf ts ↔ (∃ t ∈ ts, t.src = s) ∧ s ≠ "" := by
  unfold srcsOf
  constructor
  · intro h
    rcases List.mem_map.mp h with ⟨t, ht, hts⟩
    have h2 := List.mem_filter.mp ht
    refine ⟨⟨t, h2.1, hts⟩, ?_⟩
    intro he
    rw [he] at hts
    have h3 := h2.2
    rw [hts] at h3
    simp at h3
  · rintro ⟨⟨t, ht, hts⟩, hne⟩
    exact List.mem_map.mpr ⟨t, List.mem_filter.mpr ⟨ht, by simp [hts, hne]⟩, hts⟩

/-- C3.  Aggregator correctness: every produced record has a non-empty
normalized source (empty sources are excluded); each non-empty source
occurring in the triples yields exactly one record; that record's
frequency equals the maximum occurrence count of the group's outcome
multiset, its (official_description, classification_code) pair attains
that maximum, and the produced pair is the first-seen pair among those
attaining the maximum — so under an all-ties multiset it is the pair first
seen in input order. -/
theorem aggregator_correct (ts : List Corr) :
    (∀ r ∈ aggregate ts, r.original_description ≠ "") ∧
    (∀ s : String, s ≠ "" → (∃ t ∈ ts, t.src = s) →
      ((aggregate ts).filter
          (fun r => r.original_description == s)).length = 1 ∧
      (∀ r ∈ aggregate ts, r.original_description = s →
        r.frequency = maxCount (groupPairs ts s) ∧
        (groupPairs ts s).count (r.official_description, r.ccc_code)
            = r.frequency ∧
        (firstSeen (groupPairs ts s)).find?
            (fun p => (groupPairs ts s).count p == maxCount (groupPairs ts s))
          = some (r.official_description, r.ccc_code))) := by
  constructor
  · intro r hr
    rcases List.mem_map.mp hr with ⟨x, hx, hxr⟩
    rw [← hxr, mkRecord_orig]
    exact ((mem_srcsOf).mp (mem_firstSeen.mp hx)).2
  · intro s hsne hex
    have hmem : s ∈ firstSeen (srcsOf ts) :=
      mem_firstSeen.mpr (mem_srcsOf.mpr ⟨hex, hsne⟩)
    constructor
    · rw [aggregate, List.filter_map, List.length_map,
        List.filter_congr (fun x _ => by
          show ((mkRecord ts x).original_description == s) = (x == s)
          rw [mkRecord_orig])]
      have : (List.filter (fun x => x == s) (firstSeen (srcsOf ts))).length
          = (firstSeen (srcsOf ts)).count s := by
        rw [← List.countP_eq_length_filter]
        rfl
      rw [this]
      exact List.count_eq_one_of_mem (nodup_firstSeen _) hmem
    · intro r hr hro
      rcases List.mem_map.mp hr with ⟨x, _, hxr⟩
      have hxs : x = s := by rw [← mkRecord_orig ts x, hxr, hro]
      subst hxs
      rw [← hxr]
      -- the group is non-empty
      rcases hex with ⟨t, ht, hts⟩
      have hgne : groupPairs ts x ≠ [] := by
        unfold groupPairs
        intro hnil
        rw [List.map_eq_nil_iff] at hnil
        have : t ∈ List.filter (fun u => u.src == x) ts :=
          List.mem_filter.mpr ⟨ht, beq_iff_eq.mpr hts⟩
        rw [hnil] at this
        simp at this
      have hfne : firstSeen (groupPairs ts x) ≠ [] := firstSeen_cons_of_ne_nil hgne
      have htne : tally (groupPairs ts x) ≠ [] := by
        unfold tally
        intro hnil
        rw [List.map_eq_nil_iff] at hnil
        exact hfne hnil
      rcases htl : tally (groupPairs ts x) with _ | ⟨E, T⟩
      · exact absurd htl htne
      obtain ⟨hmem0, hle, hall, hfind⟩ := pickArg T E
      have hpick : pickMax (tally (groupPairs ts x)) = some (T.foldl pickStep E) := by
        rw [htl]
        rfl
      have hrec : mkRecord ts x = ⟨x, (T.foldl pickStep E).1.1,
          (T.foldl pickStep E).1.2, (T.foldl pickStep E).2⟩ := by
        unfold mkRecord
        rw [hpick]
      have hr0mem : T.foldl pickStep E ∈ tally (groupPairs ts x) := by
        rw [htl]
        rcases hmem0 with h1 | h1
        · rw [h1]
          exact List.mem_cons_self _ _
        · exact List.mem_cons_of_mem _ h1
      have hr0 : (T.foldl pickStep E).2
            = (groupPairs ts x).count (T.foldl pickStep E).1 ∧
          (T.foldl pickStep E).1 ∈ firstSeen (groupPairs ts x) := by
        rcases List.mem_map.mp hr0mem with ⟨p, hp, he⟩
        constructor
        · rw [← he]
        · rw [← he]
          exact hp
      have hentle : ∀ e' ∈ tally (groupPairs ts x), e'.2 ≤ (T.foldl pickStep E).2 := by
        rw [htl]
        intro e' he'
        rcases List.mem_cons.mp he' with h1 | h1
        · exact h1 ▸ hle
        · exact hall e' h1
      have hmax : (T.foldl pickStep E).2 = maxCount (groupPairs ts x) := by
        apply le_antisymm
        · have h1 : (groupPairs ts x).count (T.foldl pickStep E).1
              ∈ (groupPairs ts x).map (fun p => (groupPairs ts x).count p) :=
            List.mem_map_of_mem _ (mem_firstSeen.mp hr0.2)
          rw [hr0.1]
          exact le_foldr_max h1
        · unfold maxCount
          apply foldr_max_le
          intro y hy
          rcases List.mem_map.mp hy with ⟨p, hp, hpy⟩
          have : (p, (groupPairs ts x).count p) ∈ tally (groupPairs ts x) :=
            List.mem_map.mpr ⟨p, mem_firstSeen.mpr hp, rfl⟩
          rw [← hpy]
          exact hentle _ this
      have hfind2 : (firstSeen (groupPairs ts x)).find?
          (fun p => (groupPairs ts x).count p == (T.foldl pickStep E).2)
            = some (T.foldl pickStep E).1 := by
        rw [← htl] at hfind
        have hthis : ((firstSeen (groupPairs ts x)).find?
            (fun p => (groupPairs ts x).count p == (T.foldl pickStep E).2)).map
              (fun p => (p, (groupPairs ts x).count p))
            = some (T.foldl pickStep E) := by
          have h2 := hfind
          unfold tally at h2
          rw [List.find?_map] at h2
          exact h2
        rcases ho : (firstSeen (groupPairs ts x)).find?
            (fun p => (groupPairs ts x).count p == (T.foldl pickStep E).2)
          with _ | q
        · rw [ho] at hthis
          exact Option.noConfusion hthis
        · rw [ho] at hthis
          have h4 : ((q, (groupPairs ts x).count q) : (String × String) × Nat)
              = T.foldl pickStep E := Option.some.inj hthis
          exact congrArg some (congrArg Prod.fst h4)
      rw [hrec]
      refine ⟨hmax, ?_, ?_⟩
      · show (groupPairs ts x).count (T.foldl pickStep E).1 = (T.foldl pickStep E).2
        rw [hr0.1]
      · show (firstSeen (groupPairs ts x)).find?
            (fun p => (groupPairs ts x).count p == maxCount (groupPairs ts x))
          = some (T.foldl pickStep E).1
        rw [← hmax]
        exact hfind2

/-- The majority-vote scenario of the spec: "APPLE JUICE" observed twice
with the concentrated-juice outcome and once with the drink outcome. -/
def exCorr : List Corr :=
  [⟨"APPLE JUICE", "CONCENTRATED APPLE JUICE", "2009.71.00"⟩,
   ⟨"APPLE JUICE", "APPLE JUICE DRINK", "2202.99.00"⟩,
   ⟨"APPLE JUICE", "CONCENTRATED APPLE JUICE", "2009.71.00"⟩]

/-- Witness for C3: the scenario group has exactly one record, the winning
record is the concentrated-juice pair with frequency 2, the maximum of the
group's outcome multiset, and the find-first tie-break picks that pair. -/
theorem aggregator_correct_witness :
    ((aggregate exCorr).filter
        (fun r => r.original_description == "APPLE JUICE")).length = 1 ∧
    ((⟨"APPLE JUICE", "CONCENTRATED APPLE JUICE", "2009.71.00", 2⟩ : KRecord).frequency
        = maxCount (groupPairs exCorr "APPLE JUICE") ∧
      (groupPairs exCorr "APPLE JUICE").count
          ("CONCENTRATED APPLE JUICE", "2009.71.00") = 2 ∧
      (firstSeen (groupPairs exCorr "APPLE JUICE")).find?
          (fun p => (groupPairs exCorr "APPLE JUICE").count p ==
            maxCount (groupPairs exCorr "APPLE JUICE"))
        = some ("CONCENTRATED APPLE JUICE", "2009.71.00")) := by
  have h := (aggregator_correct exCorr).2 "APPLE JUICE" (by decide)
    ⟨⟨"APPLE JUICE", "CONCENTRATED APPLE JUICE", "2009.71.00"⟩, by decide, rfl⟩
  exact ⟨h.1, h.2 ⟨"APPLE JUICE", "CONCENTRATED APPLE JUICE", "2009.71.00", 2⟩
    (by decide) rfl⟩

/-! ### The knowledge-base publisher (batch_train.py lines 148-178) -/

/-- The observable database state: the destination knowledge table
`standard_knowledge_base` and the archive (backup) relations, each a named
table with its contents. -/
structure DBState where
  knowledge : List KRecord
  archives : List (String × List KRecord)
deriving DecidableEq

/-- The backup table name (line 162): the fixed string
`standard_knowledge_base_backup_` followed by the run timestamp. -/
def backupName (timestamp : String) : String :=
  "standard_knowledge_base_backup_" ++ timestamp

/-- A simulated failure point inside the publish transaction (spec P6):
after the archive, after the delete, or after `rowsDone` rows of a partial
insert. -/
inductive FailPoint where
  | afterArchive
  | afterDelete
  | duringInsert (rowsDone : Nat)
deriving DecidableEq

/-- The archive step (lines 160-168): `CREATE TABLE backup AS SELECT *
FROM standard_knowledge_base`. -/
def addArchive (st : DBState) (ts : String) : DBState :=
  { st with archives := st.archives ++ [(backupName ts, st.knowledge)] }

/-- The publish step (batch_train.py lines 151-177) under the storage
semantics of the MySQL backend configured in `src/database.py`:
`engine.begin()` commits on success and rolls back to the last commit
point on an exception, but on MySQL `CREATE TABLE ... AS SELECT` and
`TRUNCATE TABLE` are DDL statements that each cause an implicit commit
which cannot be rolled back.  `fp` injects a simulated failure (`none` is
the failure-free run); `if final_records:` skips everything when the
record list is empty. -/
def publishExec (ts : String) (recs : List KRecord) (fp : Option FailPoint)
    (st : DBState) : DBState :=
  if recs.isEmpty then st
  else
    let cur1 := if 0 < st.knowledge.length then addArchive st ts else st
    let com1 := if 0 < st.knowledge.length then cur1 else st
    if fp = some .afterArchive then com1
    else
      let cur2 : DBState := { cur1 with knowledge := [] }
      if fp = some .afterDelete then cur2
      else
        match fp with
        | some (.duringInsert n) =>
          if n < recs.length then cur2
          else { cur2 with knowledge := recs }
        | _ => { cur2 with knowledge := recs }

/-- The correspondence triples of a run (batch_train.py lines 117-126):
the aligned pairs with the raw description normalized. -/
def mkTriples (ra : List RawItem) (rb : List OfficialItem) : List Corr :=
  (alignedPairs ra rb).map (fun p =>
    ⟨normalize_text (some p.1.description_original),
     p.2.description_official, p.2.ccc_code⟩)

/-- `train_model`'s data path composed with the publish step: with zero
valid keys the run returns before any database operation (lines 104-106);
otherwise the knowledge records are extracted and published. -/
def runTrain (ra : List RawItem) (rb : List OfficialItem) (ts : String)
    (fp : Option FailPoint) (st : DBState) : DBState :=
  if (finalValidKeys (rawKeys ra) (offKeys rb)).isEmpty then st
  else publishExec ts (aggregate (mkTriples ra rb)) fp st

/-- The failure-free publish of a non-empty record list unfolds to: keep
the conditional archive, then replace the destination contents. -/
theorem publishExec_none_eq (ts : String) (a : KRecord) (t : List KRecord)
    (st : DBState) :
    publishExec ts (a :: t) none st =
      { (if 0 < st.knowledge.length then addArchive st ts else st) with
        knowledge := a :: t } := rfl

/-- C1.  The claimed publisher atomicity fails on the configured MySQL
backend: `TRUNCATE TABLE` causes an implicit commit that cannot be rolled
back, so a simulated failure right after the delete — or during a partial
insert — leaves the destination table empty instead of restoring its
pre-run contents (one existing row here). -/
theorem publisher_not_atomic :
    ((publishExec "T1" [⟨"B", "BB", "2", 1⟩] (some .afterDelete)
        ⟨[⟨"A", "AA", "1", 3⟩], []⟩).knowledge = ([] : List KRecord)) ∧
    ((publishExec "T1" [⟨"B", "BB", "2", 1⟩] (some (.duringInsert 0))
        ⟨[⟨"A", "AA", "1", 3⟩], []⟩).knowledge = ([] : List KRecord)) ∧
    ((⟨[⟨"A", "AA", "1", 3⟩], []⟩ : DBState).knowledge ≠ []) :=
  ⟨rfl, rfl, by decide⟩

/-- C2.  No-op guarantee: with an empty KnowledgeRecords list the publish
step is skipped entirely — the database state, destination and archives
alike, is returned unchanged whatever failure is injected — and a run
with zero valid keys returns before any database operation. -/
theorem publisher_noop :
    (∀ (ts : String) (fp : Option FailPoint) (st : DBState),
      publishExec ts [] fp st = st) ∧
    (∀ (ra : List RawItem) (rb : List OfficialItem) (ts : String)
        (fp : Option FailPoint) (st : DBState),
      (finalValidKeys (rawKeys ra) (offKeys rb)).isEmpty = true →
      runTrain ra rb ts fp st = st) := by
  constructor
  · intro ts fp st
    rfl
  · intro ra rb ts fp st h
    rw [runTrain, if_pos h]

/-- Witness for C2: a run over empty inputs has zero valid keys and leaves
a non-empty destination untouched. -/
theorem publisher_noop_witness :
    runTrain [] [] "T1" none ⟨[⟨"A", "AA", "1", 3⟩], []⟩
      = ⟨[⟨"A", "AA", "1", 3⟩], []⟩ :=
  publisher_noop.2 [] [] "T1" none ⟨[⟨"A", "AA", "1", 3⟩], []⟩ (by decide)

/-- C9.  Conditional archiving: a failure-free publish of a non-empty
record list creates an archive relation precisely when the destination is
non-empty at that moment; the archive is named with the fixed backup name
plus the run timestamp and holds the full prior destination contents,
captured before the destination is emptied and replaced. -/
theorem publisher_archiving (ts : String) (recs : List KRecord)
    (st : DBState) (hne : recs ≠ []) :
    publishExec ts recs none st =
      ⟨recs, st.archives ++
        (if st.knowledge ≠ [] then [(backupName ts, st.knowledge)] else [])⟩ ∧
    ((publishExec ts recs none st).archives = st.archives ↔
      st.knowledge = []) := by
  cases recs with
  | nil => exact absurd rfl hne
  | cons a t =>
    have heq : publishExec ts (a :: t) none st =
        ⟨a :: t, st.archives ++
          (if st.knowledge ≠ [] then [(backupName ts, st.knowledge)] else [])⟩ := by
      rw [publishExec_none_eq]
      by_cases hk : st.knowledge = []
      · rw [if_neg (by rw [hk]; simp), if_neg (by simp [hk])]
        simp
      · rw [if_pos (List.length_pos.mpr hk), if_pos hk]
        rfl
    refine ⟨heq, ?_⟩
    rw [heq]
    by_cases hk : st.knowledge = []
    · simp [hk]
    · rw [if_pos hk]
      constructor
      · intro hc
        have := congrArg List.length hc
        simp at this
      · intro hc
        exact absurd hc hk

/-- Witness for C9: publishing one new record over a destination holding
one old row archives that row under the timestamped backup name and
replaces the destination. -/
theorem publisher_archiving_witness :
    publishExec "T1" [⟨"B", "BB", "2", 1⟩] none ⟨[⟨"A", "AA", "1", 3⟩], []⟩ =
      ⟨[⟨"B", "BB", "2", 1⟩],
        ([] : List (String × List KRecord)) ++
          (if ([⟨"A", "AA", "1", 3⟩] : List KRecord) ≠ [] then
            [(backupName "T1", [⟨"A", "AA", "1", 3⟩])] else [])⟩ ∧
    ((publishExec "T1" [⟨"B", "BB", "2", 1⟩] none
        ⟨[⟨"A", "AA", "1", 3⟩], []⟩).archives
          = ([] : List (String × List KRecord)) ↔
      ([⟨"A", "AA", "1", 3⟩] : List KRecord) = []) :=
  publisher_archiving "T1" [⟨"B", "BB", "2", 1⟩]
    ⟨[⟨"A", "AA", "1", 3⟩], []⟩ (by decide)

end SeaExpress
